import Mathlib

set_option maxRecDepth 4000

/-!
Verification of `src/functions/word_labeller.py` (EyeSort).

The program has two pure functions applied row-wise over a table:
  * `fill_word_labels` — from the four text regions of a row, build a mapping
    from word label `"region.index"` to a pixel interval, and serialize it
    with `json.dumps`;
  * `find_interest_area` — parse the serialized mapping with
    `ast.literal_eval` and resolve a fixation x-coordinate to a word label or
    a sentinel.

The shallow embedding below follows the Python source line by line.  Python
ints are `Nat`/`Int` (interval endpoints are naturals by construction,
fixations are integers), Python strings are `String`, Python exceptions are
the `Except.error` branch, and Python `None` is the value `PyVal.vnone`.
-/

/-- Offset from the left edge of the screen of where the sentence begins
(`Offset = 281` in the source). -/
def Offset : Nat := 281

/-- Number of pixels per character (`PPC = 14` in the source). -/
def PPC : Nat := 14

/-- Y dimension of the top of the interest areas (declared in the source,
unused by the two core functions). -/
def Y_Pix : Nat := 514

/-- Height of the interest areas (declared in the source, unused by the two
core functions). -/
def Height : Nat := 76

/-- A spreadsheet cell holding a region's text, as pandas hands it to
`fill_word_labels`: a string, Python `None`, or the float NaN that pandas
uses for a missing cell.  The source converts the cell with `str(...)`
before splitting. -/
inductive Cell where
  | str (t : String)
  | pyNone
  | nan
deriving DecidableEq

/-- Python `str(...)` applied to a region cell: a string is unchanged,
`str(None) = "None"`, `str(nan) = "nan"`. -/
def pyStr : Cell → String
  | .str t => t
  | .pyNone => "None"
  | .nan => "nan"

/-- Helper for `pySplit`: walk the characters, accumulating the current word
reversed, emitting it at whitespace boundaries. -/
def pySplitAux : List Char → List Char → List (List Char)
  | [], acc => if acc = [] then [] else [acc.reverse]
  | c :: cs, acc =>
    if c.isWhitespace then
      if acc = [] then pySplitAux cs [] else acc.reverse :: pySplitAux cs []
    else pySplitAux cs (c :: acc)

/-- Python `str.split()` with no argument: split on runs of whitespace,
discarding empty pieces. -/
def pySplit (s : String) : List String := (pySplitAux s.data []).map String.mk

/-- The decimal digit character for `n % 10`. -/
def digitChar (n : Nat) : Char := Char.ofNat (48 + n % 10)

/-- Fuelled accumulator loop producing the decimal digits of `n` in front of
`acc` (most significant first).  Fuel `n + 1` always suffices. -/
def natToCharsAux : Nat → Nat → List Char → List Char
  | 0, _, acc => acc
  | fuel + 1, n, acc =>
    if n = 0 then acc else natToCharsAux fuel (n / 10) (digitChar n :: acc)

/-- The decimal representation of a natural number, as Python `str` renders
a nonnegative int. -/
def natToChars (n : Nat) : List Char :=
  if n = 0 then ['0'] else natToCharsAux (n + 1) n []

/-- The word label `f"{region}.{index}"` of the source. -/
def mkLabel (region index : Nat) : String :=
  String.mk (natToChars region ++ '.' :: natToChars index)

/-- One entry of the word-position map: label, interval start, interval end
(pixels). -/
abbrev Entry := String × Nat × Nat

/-- The loop body of the inner `word_labeller` closure of the source:
`for index, word in enumerate(words, start=1)`, threading the mutable
`last_word_ending_pos` (cursor) and `odd_space` flag, and returning the
entries appended for this region together with the final cursor and flag. -/
def word_labeller_run (region : Nat) :
    List String → Nat → Nat → Nat → List Entry × Nat × Nat
  | [], _, cursor, odd => ([], cursor, odd)
  | w :: ws, index, cursor, odd =>
    let e := cursor + PPC * (w.length + odd)
    let rest := word_labeller_run region ws (index + 1) e 1
    ((mkLabel region index, cursor, e) :: rest.1, rest.2)

/-- The inner `word_labeller(region, region_sentence)` closure of the source:
`words = str(region_sentence).split()` then the enumerate loop. -/
def word_labeller (region : Nat) (cell : Cell) (cursor odd : Nat) :
    List Entry × Nat × Nat :=
  word_labeller_run region (pySplit (pyStr cell)) 1 cursor odd

/-- The body of `fill_word_labels` before serialization: the four region
calls in order, starting the cursor at `Offset` and the `odd_space` flag at
`0`.  The Python dict holds the entries in insertion order (keys are
distinct across regions), so a list of entries models it. -/
def buildMap (beginning pretarget target_word ending : Cell) : List Entry :=
  let r1 := word_labeller 1 beginning Offset 0
  let r2 := word_labeller 2 pretarget r1.2.1 r1.2.2
  let r3 := word_labeller 3 target_word r2.2.1 r2.2.2
  let r4 := word_labeller 4 ending r3.2.1 r3.2.2
  r1.1 ++ (r2.1 ++ (r3.1 ++ r4.1))

/-- `json.dumps` of one `"key": [a, b]` member (a Python 2-tuple value is
serialized as a JSON array). -/
def serEntry (e : Entry) : List Char :=
  '"' :: e.1.data ++ '"' :: ':' :: ' ' :: '[' ::
    (natToChars e.2.1 ++ ',' :: ' ' :: (natToChars e.2.2 ++ [']']))

/-- `json.dumps` member list with the default `", "` separator. -/
def serEntries : List Entry → List Char
  | [] => []
  | [e] => serEntry e
  | e :: e2 :: rest => serEntry e ++ ',' :: ' ' :: serEntries (e2 :: rest)

/-- `json.dumps` of the word-position dict (default separators). -/
def jsonDumps (m : List Entry) : String :=
  String.mk ('{' :: (serEntries m ++ ['}']))

/-- `fill_word_labels(row)` of the source: build the word-position dict from
the four region cells and return `json.dumps(word_labels)`. -/
def fill_word_labels (beginning pretarget target_word ending : Cell) : String :=
  jsonDumps (buildMap beginning pretarget target_word ending)

/-- Decimal value of a digit run (most significant first). -/
def digitsVal (ds : List Char) : Nat :=
  ds.foldl (fun a c => 10 * a + (c.toNat - 48)) 0

/-- Parse a nonempty maximal run of decimal digits.  Models
`ast.literal_eval`'s reading of a nonnegative int literal. -/
def parseNat (cs : List Char) : Option (Nat × List Char) :=
  let ds := cs.takeWhile Char.isDigit
  if ds = [] then none else some (digitsVal ds, cs.dropWhile Char.isDigit)

/-- Parse a double-quoted string literal without escapes, the only form the
builder's keys take.  Models `ast.literal_eval`'s reading of a str literal. -/
def parseStringLit (cs : List Char) : Option (String × List Char) :=
  match cs with
  | '"' :: rest =>
    let ks := rest.takeWhile (fun c => c != '"')
    match rest.dropWhile (fun c => c != '"') with
    | '"' :: rest2 => some (String.mk ks, rest2)
    | _ => none
  | _ => none

/-- Parse a two-element list literal `[a, b]` of nonnegative ints, the form
`json.dumps` gives the interval tuples. -/
def parsePair (cs : List Char) : Option ((Nat × Nat) × List Char) :=
  match cs with
  | '[' :: r1 =>
    match parseNat r1 with
    | some (a, r2) =>
      match r2 with
      | ',' :: ' ' :: r3 =>
        match parseNat r3 with
        | some (b, r4) =>
          match r4 with
          | ']' :: r5 => some ((a, b), r5)
          | _ => none
        | none => none
      | _ => none
    | none => none
  | _ => none

/-- Parse one `"key": [a, b]` member. -/
def parseEntry (cs : List Char) : Option (Entry × List Char) :=
  match parseStringLit cs with
  | some (k, r1) =>
    match r1 with
    | ':' :: ' ' :: r2 =>
      match parsePair r2 with
      | some ((a, b), r3) => some ((k, a, b), r3)
      | none => none
    | _ => none
  | none => none

/-- Parse the member list of a nonempty dict literal up to and including the
closing brace.  Fuelled; the input length is always enough fuel. -/
def parseEntriesAux : Nat → List Char → Option (List Entry)
  | 0, _ => none
  | fuel + 1, cs =>
    match parseEntry cs with
    | some (e, rest) =>
      match rest with
      | ['}'] => some [e]
      | ',' :: ' ' :: rest2 =>
        match parseEntriesAux fuel rest2 with
        | some es => some (e :: es)
        | none => none
      | _ => none
    | none => none

/-- Model of `ast.literal_eval(positions)` on the dict-literal grammar that
`json.dumps` emits for the word-position map (string keys, two-element int
lists).  `none` models the exception `literal_eval` raises on anything it
cannot parse. -/
def literalEval (s : String) : Option (List Entry) :=
  match s.data with
  | c :: rest =>
    if c = '{' then
      if rest = ['}'] then some [] else parseEntriesAux rest.length rest
    else none
  | [] => none

/-- The fixation argument of `find_interest_area`: either the non-fixation
sentinel string `"."` or a numeric pixel coordinate. -/
inductive Fixation where
  | dot
  | num (x : Int)
deriving DecidableEq

/-- A Python value returned by `find_interest_area`: a string, or `None`. -/
inductive PyVal where
  | vstr (s : String)
  | vnone
deriving DecidableEq

/-- The scan loop of `find_interest_area`:
`for key, (x_min, x_max) in word_positions.items(): if x_min < fixation <= x_max: return key`. -/
def scanIA : List Entry → Int → Option String
  | [], _ => none
  | (k, a, b) :: rest, fix =>
    if (a : Int) < fix ∧ fix ≤ (b : Int) then some k else scanIA rest fix

/-- `all_values = [value for tup in word_positions.values() for value in tup]`. -/
def allValues : List Entry → List Int
  | [] => []
  | (_, a, b) :: rest => (a : Int) :: (b : Int) :: allValues rest

/-- Python `min` on a list: `none` models the `ValueError` raised on an
empty sequence. -/
def pyMin : List Int → Option Int
  | [] => none
  | v :: vs => some (vs.foldl min v)

/-- Python `max` on a list: `none` models the `ValueError` raised on an
empty sequence. -/
def pyMax : List Int → Option Int
  | [] => none
  | v :: vs => some (vs.foldl max v)

/-- The numeric branch of `find_interest_area` after deserialization: the
scan loop, then the min/max boundary chain, then the final `return None`.
Reaching `min(all_values)` on an empty list raises `ValueError`. -/
def resolveNum (wp : List Entry) (fix : Int) : Except String PyVal :=
  match scanIA wp fix with
  | some k => .ok (.vstr k)
  | none =>
    match allValues wp with
    | [] => .error "min() arg is an empty sequence"
    | v :: vs =>
      if fix = vs.foldl min v then .ok (.vstr "1.1")
      else if fix < vs.foldl min v then .ok (.vstr "left")
      else if vs.foldl max v < fix then .ok (.vstr "right")
      else .ok .vnone

/-- `find_interest_area(positions, fixation)` of the source: the sentinel
pass-through, then `ast.literal_eval`, then the numeric resolution.  An
`Except.error` models a raised Python exception. -/
def find_interest_area (positions : String) (fixation : Fixation) :
    Except String PyVal :=
  match fixation with
  | .dot => .ok (.vstr ".")
  | .num x =>
    match literalEval positions with
    | none => .error "malformed node or string"
    | some wp => resolveNum wp x

/-- Spec-side enumeration of a region's words with their labels, mirroring
`enumerate(words, start=1)` but without positions. -/
def enumWords (region : Nat) : List String → Nat → List (String × String)
  | [], _ => []
  | w :: ws, index => (mkLabel region index, w) :: enumWords region ws (index + 1)

/-- Spec-side list of all labelled words of a row, regions 1 to 4 in order. -/
def rowWords (b p t g : Cell) : List (String × String) :=
  enumWords 1 (pySplit (pyStr b)) 1 ++
    (enumWords 2 (pySplit (pyStr p)) 1 ++
      (enumWords 3 (pySplit (pyStr t)) 1 ++ enumWords 4 (pySplit (pyStr g)) 1))

/-- Spec-side single fold over the labelled words of a whole row: assign
each word the interval starting at the running cursor with width
`PPC * (length + flag)`, the flag being `0` only for the very first word. -/
def labelRun : List (String × String) → Nat → Nat → List Entry × Nat × Nat
  | [], cursor, odd => ([], cursor, odd)
  | (k, w) :: ws, cursor, odd =>
    let e := cursor + PPC * (w.length + odd)
    let rest := labelRun ws e 1
    ((k, cursor, e) :: rest.1, rest.2)

/-- The intervals of `l` chain from cursor `c` to cursor `c'`: each entry
starts where the previous one ended. -/
def chainFromTo : Nat → List Entry → Nat → Prop
  | c, [], c' => c' = c
  | c, e :: rest, c' => e.2.1 = c ∧ chainFromTo e.2.2 rest c'

/-- The left-open right-closed membership test of the resolver's scan loop,
as a Boolean predicate on entries. -/
def hitP (fix : Int) (e : Entry) : Bool :=
  decide ((e.2.1 : Int) < fix ∧ fix ≤ (e.2.2 : Int))

/-- All keys of a map are free of the double quote, so their serialized
string literals parse back exactly. -/
def KeysSafe (m : List Entry) : Prop :=
  ∀ e ∈ m, ∀ c ∈ e.1.data, (c != '"') = true

/-- The example row of the source's header comment:
beginning = "I did not", pretarget = "go to", target = "school",
ending = "and stayed home.". -/
def exB : Cell := Cell.str "I did not"

/-- Example pretarget region. -/
def exP : Cell := Cell.str "go to"

/-- Example target region. -/
def exT : Cell := Cell.str "school"

/-- Example ending region. -/
def exG : Cell := Cell.str "and stayed home."

/-! ## Builder lemmas -/

/-- The source's region loop is the generic labelled-word fold applied to
the enumerated words of the region. -/
theorem word_labeller_run_eq_labelRun (ws : List String) (r i c o : Nat) :
    word_labeller_run r ws i c o = labelRun (enumWords r ws i) c o := by
  induction ws generalizing i c o with
  | nil => rfl
  | cons w ws ih => simp [word_labeller_run, enumWords, labelRun, ih]

/-- The labelled-word fold distributes over list append, threading the
cursor and the space flag. -/
theorem labelRun_append (l1 l2 : List (String × String)) (c o : Nat) :
    labelRun (l1 ++ l2) c o =
      ((labelRun l1 c o).1 ++
          (labelRun l2 (labelRun l1 c o).2.1 (labelRun l1 c o).2.2).1,
        (labelRun l2 (labelRun l1 c o).2.1 (labelRun l1 c o).2.2).2) := by
  induction l1 generalizing c o with
  | nil => rfl
  | cons kw l1 ih =>
    obtain ⟨k, w⟩ := kw
    simp [labelRun, ih]

/-- The four stateful region calls of `fill_word_labels` amount to one fold
over all labelled words of the row, cursor starting at `Offset`, flag at 0. -/
theorem buildMap_eq_labelRun (b p t g : Cell) :
    buildMap b p t g = (labelRun (rowWords b p t g) Offset 0).1 := by
  simp [buildMap, word_labeller, rowWords, word_labeller_run_eq_labelRun,
    labelRun_append]

/-- The fold produces one entry per word. -/
theorem labelRun_length (ws : List (String × String)) (c o : Nat) :
    (labelRun ws c o).1.length = ws.length := by
  induction ws generalizing c o with
  | nil => rfl
  | cons kw ws ih =>
    obtain ⟨k, w⟩ := kw
    simp [labelRun, ih]

/-- The fold keeps the input labels in order. -/
theorem labelRun_map_fst (ws : List (String × String)) (c o : Nat) :
    (labelRun ws c o).1.map Prod.fst = ws.map Prod.fst := by
  induction ws generalizing c o with
  | nil => rfl
  | cons kw ws ih =>
    obtain ⟨k, w⟩ := kw
    simp [labelRun, ih]

/-- The fold's intervals chain from the initial cursor to the final one. -/
theorem labelRun_chain (ws : List (String × String)) (c o : Nat) :
    chainFromTo c (labelRun ws c o).1 (labelRun ws c o).2.1 := by
  induction ws generalizing c o with
  | nil => rfl
  | cons kw ws ih =>
    obtain ⟨k, w⟩ := kw
    exact ⟨rfl, ih ..⟩

/-- In a chain, each interval's end is the next interval's start. -/
theorem chain_get (l : List Entry) (c cf : Nat) (h : chainFromTo c l cf) :
    ∀ i (hi : i + 1 < l.length),
      (l.get ⟨i, Nat.lt_of_succ_lt hi⟩).2.2 = (l.get ⟨i + 1, hi⟩).2.1 := by
  induction l generalizing c with
  | nil => intro i hi; simp at hi
  | cons e rest ih =>
    intro i hi
    cases i with
    | zero =>
      cases rest with
      | nil => simp at hi
      | cons e2 rest2 => exact h.2.1.symm
    | succ i =>
      have hi' : i + 1 < rest.length := by simpa using hi
      exact ih e.2.2 h.2 i hi'

/-- In a chain, the first interval starts at the initial cursor. -/
theorem chain_head (l : List Entry) (c cf : Nat) (h : chainFromTo c l cf) :
    ∀ h0 : 0 < l.length, (l.get ⟨0, h0⟩).2.1 = c := by
  cases l with
  | nil => intro h0; simp at h0
  | cons e rest => intro h0; exact h.1

/-- Interval widths of the fold: the i-th word's interval has width
`PPC * (length + flag)`, the flag being the initial one for the first word
and `1` afterwards. -/
theorem labelRun_width (ws : List (String × String)) (c o : Nat) :
    ∀ i (h1 : i < (labelRun ws c o).1.length) (h2 : i < ws.length),
      ((labelRun ws c o).1.get ⟨i, h1⟩).2.2 =
        ((labelRun ws c o).1.get ⟨i, h1⟩).2.1 +
          PPC * ((ws.get ⟨i, h2⟩).2.length + if i = 0 then o else 1) := by
  induction ws generalizing c o with
  | nil => intro i h1 h2; simp at h2
  | cons kw ws ih =>
    intro i h1 h2
    obtain ⟨k, w⟩ := kw
    cases i with
    | zero => rfl
    | succ i =>
      have h1' : i < (labelRun ws (c + PPC * (w.length + o)) 1).1.length := by
        simpa [labelRun] using h1
      have h2' : i < ws.length := by simpa using h2
      have hone : (if i = 0 then (1 : Nat) else 1) = 1 := by
        cases i <;> rfl
      have := ih (c + PPC * (w.length + o)) 1 i h1' h2'
      rw [hone] at this
      simpa [labelRun] using this

/-- Every interval of the fold starts at or after the initial cursor and
ends at or after its start. -/
theorem labelRun_start_bound (ws : List (String × String)) (c o : Nat) :
    ∀ e ∈ (labelRun ws c o).1, c ≤ e.2.1 ∧ e.2.1 ≤ e.2.2 := by
  induction ws generalizing c o with
  | nil => intro e he; simp [labelRun] at he
  | cons kw ws ih =>
    obtain ⟨k, w⟩ := kw
    intro e he
    simp only [labelRun, List.mem_cons] at he
    rcases he with he | he
    · subst he
      exact ⟨Nat.le_refl c, Nat.le_add_right ..⟩
    · have := ih (c + PPC * (w.length + o)) 1 e he
      exact ⟨Nat.le_trans (Nat.le_add_right ..) this.1, this.2⟩

/-! ## Resolver lemmas -/

/-- The scan loop returns `none` when no interval passes the left-open
right-closed test. -/
theorem scanIA_eq_none_of (wp : List Entry) (fix : Int)
    (h : ∀ e ∈ wp, hitP fix e = false) : scanIA wp fix = none := by
  induction wp with
  | nil => rfl
  | cons e rest ih =>
    obtain ⟨k, a, b⟩ := e
    have h0 := h _ (List.mem_cons_self ..)
    simp only [hitP, decide_eq_false_iff_not] at h0
    simp only [scanIA, if_neg h0]
    exact ih fun e he => h _ (List.mem_cons_of_mem _ he)

/-- The scan loop returns the label of the first entry passing the test. -/
theorem scanIA_eq_find (wp : List Entry) (fix : Int) (e : Entry)
    (h : wp.find? (hitP fix) = some e) : scanIA wp fix = some e.1 := by
  induction wp with
  | nil => simp [List.find?] at h
  | cons e0 rest ih =>
    obtain ⟨k, a, b⟩ := e0
    by_cases hp : hitP fix (k, a, b) = true
    · rw [List.find?_cons_of_pos _ hp] at h
      have hp2 : (a : Int) < fix ∧ fix ≤ (b : Int) := by
        simpa [hitP] using hp
      obtain rfl : (k, a, b) = e := by injection h
      simp [scanIA, if_pos hp2]
    · rw [List.find?_cons_of_neg _ hp] at h
      have hp2 : ¬((a : Int) < fix ∧ fix ≤ (b : Int)) := by
        simpa [hitP] using hp
      simp only [scanIA, if_neg hp2]
      exact ih h

/-- Both endpoints of every entry occur in the flattened value list. -/
theorem mem_allValues (wp : List Entry) (e : Entry) (he : e ∈ wp) :
    ((e.2.1 : Int)) ∈ allValues wp ∧ ((e.2.2 : Int)) ∈ allValues wp := by
  induction wp with
  | nil => simp at he
  | cons e0 rest ih =>
    obtain ⟨k, a, b⟩ := e0
    simp only [List.mem_cons] at he
    rcases he with rfl | he
    · simp [allValues]
    · have := ih he
      simp only [allValues, List.mem_cons]
      exact ⟨Or.inr (Or.inr this.1), Or.inr (Or.inr this.2)⟩

/-- The running minimum of a fold is a lower bound of seed and elements. -/
theorem foldl_min_le (vs : List Int) :
    ∀ v x, x ∈ v :: vs → vs.foldl min v ≤ x := by
  induction vs with
  | nil =>
    intro v x hx
    simp only [List.mem_singleton] at hx
    subst hx
    exact le_refl _
  | cons u us ih =>
    intro v x hx
    have hfold : (u :: us).foldl min v = us.foldl min (min v u) := rfl
    rw [hfold]
    simp only [List.mem_cons] at hx
    have hseed := ih (min v u) (min v u) (List.mem_cons_self ..)
    rcases hx with h | h | hx
    · exact (hseed.trans (min_le_left ..)).trans_eq h.symm
    · exact (hseed.trans (min_le_right ..)).trans_eq h.symm
    · exact ih (min v u) _ (List.mem_cons_of_mem _ hx)

/-- The running maximum of a fold is an upper bound of seed and elements. -/
theorem le_foldl_max (vs : List Int) :
    ∀ v x, x ∈ v :: vs → x ≤ vs.foldl max v := by
  induction vs with
  | nil =>
    intro v x hx
    simp only [List.mem_singleton] at hx
    subst hx
    exact le_refl _
  | cons u us ih =>
    intro v x hx
    have hfold : (u :: us).foldl max v = us.foldl max (max v u) := rfl
    rw [hfold]
    simp only [List.mem_cons] at hx
    have hseed := ih (max v u) (max v u) (List.mem_cons_self ..)
    rcases hx with h | h | hx
    · exact h.trans_le ((le_max_left ..).trans hseed)
    · exact h.trans_le ((le_max_right ..).trans hseed)
    · exact ih (max v u) _ (List.mem_cons_of_mem _ hx)

/-- Shape of the numeric branch once the scan has failed and the value list
is nonempty: the min/max boundary chain of the source. -/
theorem resolveNum_no_scan (wp : List Entry) (fix : Int)
    (hscan : scanIA wp fix = none) (v : Int) (vs : List Int)
    (hav : allValues wp = v :: vs) :
    resolveNum wp fix =
      (if fix = vs.foldl min v then .ok (.vstr "1.1")
       else if fix < vs.foldl min v then .ok (.vstr "left")
       else if vs.foldl max v < fix then .ok (.vstr "right")
       else .ok .vnone) := by
  simp only [resolveNum, hscan, hav]

/-- If the fixation is at most the global minimum endpoint, the scan loop
cannot match any interval. -/
theorem scanIA_none_of_le_min (wp : List Entry) (fix : Int) (v : Int)
    (vs : List Int) (hav : allValues wp = v :: vs)
    (hle : fix ≤ vs.foldl min v) : scanIA wp fix = none := by
  apply scanIA_eq_none_of
  intro e he
  have hmem := (mem_allValues wp e he).1
  rw [hav] at hmem
  have := foldl_min_le vs v _ hmem
  simp only [hitP, decide_eq_false_iff_not]
  intro hc
  exact absurd hc.1 (not_lt.mpr (le_trans hle this))

/-! ## Claims C2 through C8, C10 -/

/-- C2: for every row, consecutive intervals of the builder's map abut (the
end of word i equals the start of word i+1 in processing order), and the
first interval starts at the configured left-edge offset. -/
theorem c2_theorem (b p t g : Cell) :
    (∀ i (hi : i + 1 < (buildMap b p t g).length),
        ((buildMap b p t g).get ⟨i, Nat.lt_of_succ_lt hi⟩).2.2
          = ((buildMap b p t g).get ⟨i + 1, hi⟩).2.1)
    ∧ ∀ h0 : 0 < (buildMap b p t g).length,
        ((buildMap b p t g).get ⟨0, h0⟩).2.1 = Offset := by
  have hc : chainFromTo Offset (buildMap b p t g)
      (labelRun (rowWords b p t g) Offset 0).2.1 := by
    rw [buildMap_eq_labelRun]
    exact labelRun_chain ..
  exact ⟨chain_get _ _ _ hc, chain_head _ _ _ hc⟩

/-- Witness for C2 on the example row: the first two intervals abut and the
first starts at `Offset`. -/
theorem c2_witness :
    ((buildMap exB exP exT exG).get ⟨0, by decide⟩).2.2
        = ((buildMap exB exP exT exG).get ⟨1, by decide⟩).2.1
    ∧ ((buildMap exB exP exT exG).get ⟨0, by decide⟩).2.1 = Offset :=
  ⟨(c2_theorem exB exP exT exG).1 0 (by decide),
    (c2_theorem exB exP exT exG).2 (by decide)⟩

/-- C3 counterexample: on a position map with an internal gap, a fixation in
the gap makes the resolver return Python `None` — a silent null, not an
explicit "unresolved" marker. -/
theorem c3_counterexample :
    find_interest_area (jsonDumps [("1.1", 281, 295), ("1.2", 300, 310)])
        (.num 297) = .ok PyVal.vnone
    ∧ PyVal.vnone ≠ PyVal.vstr "unresolved" :=
  ⟨rfl, by decide⟩

/-- C3 amended: for every position map and numeric fixation that misses all
intervals and all boundary cases, the resolver returns Python `None` (an
implicit no-match null) and does not raise an exception. -/
theorem c3_theorem (wp : List Entry) (fix mn mx : Int)
    (hscan : scanIA wp fix = none)
    (hmn : pyMin (allValues wp) = some mn)
    (hmx : pyMax (allValues wp) = some mx)
    (h1 : fix ≠ mn) (h2 : ¬ fix < mn) (h3 : ¬ mx < fix) :
    resolveNum wp fix = .ok PyVal.vnone := by
  cases hav : allValues wp with
  | nil => rw [hav] at hmn; simp [pyMin] at hmn
  | cons v vs =>
    rw [hav] at hmn hmx
    simp only [pyMin, Option.some.injEq] at hmn
    simp only [pyMax, Option.some.injEq] at hmx
    subst hmn
    subst hmx
    rw [resolveNum_no_scan wp fix hscan v vs hav]
    rw [if_neg h1, if_neg h2, if_neg h3]

/-- Witness for the amended C3 at the gap map and fixation 297. -/
theorem c3_witness :
    resolveNum [("1.1", 281, 295), ("1.2", 300, 310)] 297 = .ok PyVal.vnone :=
  c3_theorem [("1.1", 281, 295), ("1.2", 300, 310)] 297 281 310 (by decide)
    (by decide) (by decide) (by decide) (by decide) (by decide)

/-- C4 counterexample: a missing region cell (pandas NaN) is converted with
`str` to the word `"nan"`, so it contributes one word and advances the
cursor — it is not treated as an empty region. -/
theorem c4_counterexample :
    buildMap Cell.nan (Cell.str "") (Cell.str "") (Cell.str "")
        = [("1.1", 281, 323)]
    ∧ (word_labeller 1 Cell.nan Offset 0).2.1 ≠ Offset :=
  ⟨by decide, by decide⟩

/-- C4 amended: a region whose text splits to zero words (empty or
whitespace-only after the `str` conversion) contributes no entries, does not
move the cursor and does not change the space flag, so subsequent regions
are unaffected by it. -/
theorem c4_theorem (region : Nat) (c : Cell) (cursor odd : Nat)
    (h : pySplit (pyStr c) = []) :
    word_labeller region c cursor odd = ([], cursor, odd) := by
  unfold word_labeller
  rw [h]
  rfl

/-- Witness for the amended C4 at an empty-string region. -/
theorem c4_witness : word_labeller 2 (Cell.str "") 300 1 = ([], 300, 1) :=
  c4_theorem 2 (Cell.str "") 300 1 rfl

/-- C5: the resolver returns the label of the first interval `(x_min, x_max]`
with `x_min < fixation <= x_max` (so a fixation at an interval's right edge
resolves to that interval), and on every builder map a fixation exactly at
the global left offset matches no interval under this rule. -/
theorem c5_theorem (wp : List Entry) (fix : Int) :
    (∀ e, wp.find? (hitP fix) = some e →
        resolveNum wp fix = Except.ok (PyVal.vstr e.1))
    ∧ ∀ b p t g, scanIA (buildMap b p t g) ((Offset : Nat) : Int) = none := by
  constructor
  · intro e h
    have hs := scanIA_eq_find wp fix e h
    simp only [resolveNum, hs]
  · intro b p t g
    apply scanIA_eq_none_of
    intro e he
    rw [buildMap_eq_labelRun] at he
    have hb := labelRun_start_bound (rowWords b p t g) Offset 0 e he
    simp only [hitP, decide_eq_false_iff_not]
    intro hc
    have hle : ((Offset : Nat) : Int) ≤ (e.2.1 : Int) := by exact_mod_cast hb.1
    exact absurd hc.1 (not_lt.mpr hle)

/-- Witness for C5: a fixation at the right edge 295 of the single interval
(281, 295] resolves to its label. -/
theorem c5_witness :
    resolveNum [("1.1", 281, 295)] 295 = Except.ok (PyVal.vstr "1.1") :=
  (c5_theorem [("1.1", 281, 295)] 295).1 ("1.1", 281, 295) (by decide)

/-- C6: a numeric fixation exactly equal to the global minimum endpoint of a
nonempty position map resolves to the label `"1.1"`. -/
theorem c6_theorem (wp : List Entry) (fix : Int)
    (h : pyMin (allValues wp) = some fix) :
    resolveNum wp fix = .ok (.vstr "1.1") := by
  cases hav : allValues wp with
  | nil => rw [hav] at h; simp [pyMin] at h
  | cons v vs =>
    rw [hav] at h
    simp only [pyMin, Option.some.injEq] at h
    have hscan := scanIA_none_of_le_min wp fix v vs hav (le_of_eq h.symm)
    rw [resolveNum_no_scan wp fix hscan v vs hav]
    rw [if_pos h.symm]

/-- Witness for C6 at a one-word map whose minimum endpoint is 281. -/
theorem c6_witness : resolveNum [("1.1", 281, 295)] 281 = .ok (.vstr "1.1") :=
  c6_theorem [("1.1", 281, 295)] 281 (by decide)

/-- C7: a numeric fixation strictly below the global minimum endpoint
resolves to `"left"`, and one strictly above the global maximum endpoint
resolves to `"right"`. -/
theorem c7_theorem (wp : List Entry) (fix mn mx : Int) :
    (pyMin (allValues wp) = some mn → fix < mn →
        resolveNum wp fix = .ok (.vstr "left"))
    ∧ (pyMax (allValues wp) = some mx → mx < fix →
        resolveNum wp fix = .ok (.vstr "right")) := by
  constructor
  · intro hmn hlt
    cases hav : allValues wp with
    | nil => rw [hav] at hmn; simp [pyMin] at hmn
    | cons v vs =>
      rw [hav] at hmn
      simp only [pyMin, Option.some.injEq] at hmn
      subst hmn
      have hscan := scanIA_none_of_le_min wp fix v vs hav (le_of_lt hlt)
      rw [resolveNum_no_scan wp fix hscan v vs hav]
      rw [if_neg (ne_of_lt hlt), if_pos hlt]
  · intro hmx hgt
    cases hav : allValues wp with
    | nil => rw [hav] at hmx; simp [pyMax] at hmx
    | cons v vs =>
      rw [hav] at hmx
      simp only [pyMax, Option.some.injEq] at hmx
      subst hmx
      have hscan : scanIA wp fix = none := by
        apply scanIA_eq_none_of
        intro e he
        have hmem := (mem_allValues wp e he).2
        rw [hav] at hmem
        have hb := le_foldl_max vs v _ hmem
        simp only [hitP, decide_eq_false_iff_not]
        intro hc
        exact absurd (le_trans hc.2 hb) (not_le.mpr hgt)
      rw [resolveNum_no_scan wp fix hscan v vs hav]
      have hmnv : vs.foldl min v ≤ v := foldl_min_le vs v v (List.mem_cons_self ..)
      have hvmx : v ≤ vs.foldl max v := le_foldl_max vs v v (List.mem_cons_self ..)
      have hlt2 : vs.foldl min v < fix := lt_of_le_of_lt (le_trans hmnv hvmx) hgt
      rw [if_neg (ne_of_gt hlt2), if_neg (not_lt.mpr (le_of_lt hlt2)), if_pos hgt]

/-- Witness for C7 at a one-interval map: 280 falls left, 296 falls right. -/
theorem c7_witness :
    resolveNum [("1.1", 281, 295)] 280 = .ok (.vstr "left")
    ∧ resolveNum [("1.1", 281, 295)] 296 = .ok (.vstr "right") :=
  ⟨(c7_theorem [("1.1", 281, 295)] 280 281 295).1 (by decide) (by decide),
    (c7_theorem [("1.1", 281, 295)] 296 281 295).2 (by decide) (by decide)⟩

/-- C8: the non-fixation sentinel `"."` is returned unchanged for every
positions string, parsable or not — the resolver returns before any
deserialization or interval lookup. -/
theorem c8_theorem (positions : String) :
    find_interest_area positions Fixation.dot = .ok (.vstr ".") := rfl

/-- C10: on a row whose four regions all split to zero words the builder's
map is empty, and the resolver applied to any numeric fixation raises
`ValueError: min() arg is an empty sequence` instead of returning a value. -/
theorem c10_theorem (b p t g : Cell)
    (h1 : pySplit (pyStr b) = []) (h2 : pySplit (pyStr p) = [])
    (h3 : pySplit (pyStr t) = []) (h4 : pySplit (pyStr g) = [])
    (fix : Int) :
    find_interest_area (fill_word_labels b p t g) (.num fix)
      = .error "min() arg is an empty sequence" := by
  have hb : buildMap b p t g = [] := by
    simp [buildMap, word_labeller, h1, h2, h3, h4, word_labeller_run]
  unfold fill_word_labels
  rw [hb]
  rfl

/-- Witness for C10 at a row of four empty regions and fixation 500. -/
theorem c10_witness :
    find_interest_area
        (fill_word_labels (Cell.str "") (Cell.str "") (Cell.str "") (Cell.str ""))
        (.num 500)
      = .error "min() arg is an empty sequence" :=
  c10_theorem (Cell.str "") (Cell.str "") (Cell.str "") (Cell.str "") rfl rfl
    rfl rfl 500

/-! ## Serialization round-trip lemmas -/

/-- `takeWhile`/`dropWhile` split an append at the first failing element. -/
theorem takeWhile_app (p : Char → Bool) (xs ys : List Char)
    (hx : ∀ c ∈ xs, p c = true) (hy : ∀ d, ys.head? = some d → p d = false) :
    (xs ++ ys).takeWhile p = xs ∧ (xs ++ ys).dropWhile p = ys := by
  induction xs with
  | nil =>
    cases ys with
    | nil => exact ⟨rfl, rfl⟩
    | cons y ys2 =>
      have hpy := hy y rfl
      simp [List.takeWhile, List.dropWhile, hpy]
  | cons x xs2 ih =>
    have hpx := hx x (List.mem_cons_self ..)
    have ih2 := ih fun c hc => hx c (List.mem_cons_of_mem _ hc)
    simp [List.takeWhile, List.dropWhile, hpx, ih2.1, ih2.2]

/-- Digit characters are decimal digits. -/
theorem digitChar_isDigit (n : Nat) : (digitChar n).isDigit = true := by
  have h : n % 10 < 10 := Nat.mod_lt _ (by omega)
  unfold digitChar
  suffices hsuf : ∀ m, m < 10 → (Char.ofNat (48 + m)).isDigit = true by
    exact hsuf (n % 10) h
  intro m hm
  interval_cases m <;> decide

/-- Code point of a digit character. -/
theorem digitChar_toNat (n : Nat) : (digitChar n).toNat = 48 + n % 10 := by
  have h : n % 10 < 10 := Nat.mod_lt _ (by omega)
  unfold digitChar
  suffices hsuf : ∀ m, m < 10 → (Char.ofNat (48 + m)).toNat = 48 + m by
    exact hsuf (n % 10) h
  intro m hm
  interval_cases m <;> decide

/-- The digit loop only prepends to its accumulator. -/
theorem natToCharsAux_append (fuel : Nat) :
    ∀ n acc, natToCharsAux fuel n acc = natToCharsAux fuel n [] ++ acc := by
  induction fuel with
  | zero => intro n acc; rfl
  | succ fuel ih =>
    intro n acc
    by_cases hn : n = 0
    · simp [natToCharsAux, hn]
    · simp only [natToCharsAux, if_neg hn]
      rw [ih (n / 10) (digitChar n :: acc), ih (n / 10) [digitChar n]]
      simp

/-- Every character the digit loop produces is a digit. -/
theorem natToCharsAux_digits (fuel : Nat) :
    ∀ n c, c ∈ natToCharsAux fuel n [] → c.isDigit = true := by
  induction fuel with
  | zero => intro n c hc; simp [natToCharsAux] at hc
  | succ fuel ih =>
    intro n c hc
    by_cases hn : n = 0
    · simp [natToCharsAux, hn] at hc
    · simp only [natToCharsAux, if_neg hn] at hc
      rw [natToCharsAux_append] at hc
      rcases List.mem_append.mp hc with hc | hc
      · exact ih (n / 10) c hc
      · simp only [List.mem_singleton] at hc
        subst hc
        exact digitChar_isDigit n

/-- Every character of a decimal rendering is a digit. -/
theorem natToChars_digits (n : Nat) : ∀ c ∈ natToChars n, c.isDigit = true := by
  intro c hc
  unfold natToChars at hc
  by_cases hn : n = 0
  · rw [if_pos hn] at hc
    simp only [List.mem_singleton] at hc
    subst hc
    decide
  · rw [if_neg hn] at hc
    exact natToCharsAux_digits (n + 1) n c hc

/-- A decimal rendering is never empty. -/
theorem natToChars_ne_nil (n : Nat) : natToChars n ≠ [] := by
  unfold natToChars
  by_cases hn : n = 0
  · simp [hn]
  · rw [if_neg hn]
    simp only [natToCharsAux, if_neg hn]
    rw [natToCharsAux_append]
    simp

/-- Value of a digit run extended by one digit. -/
theorem digitsVal_append (xs : List Char) (c : Char) :
    digitsVal (xs ++ [c]) = 10 * digitsVal xs + (c.toNat - 48) := by
  unfold digitsVal
  rw [List.foldl_append]
  rfl

/-- The digit loop's output evaluates back to its input. -/
theorem natToCharsAux_val (fuel : Nat) :
    ∀ n, n ≤ fuel → digitsVal (natToCharsAux fuel n []) = n := by
  induction fuel with
  | zero =>
    intro n hn
    have h0 : n = 0 := Nat.le_zero.mp hn
    subst h0
    rfl
  | succ fuel ih =>
    intro n hn
    by_cases hn0 : n = 0
    · subst hn0
      simp [natToCharsAux, digitsVal]
    · simp only [natToCharsAux, if_neg hn0]
      rw [natToCharsAux_append, digitsVal_append]
      have hdiv : n / 10 ≤ fuel := by
        have hlt : n / 10 < n :=
          Nat.div_lt_self (Nat.pos_of_ne_zero hn0) (by omega)
        omega
      rw [ih (n / 10) hdiv, digitChar_toNat]
      omega

/-- Round trip of the decimal rendering through the digit evaluator. -/
theorem digitsVal_natToChars (n : Nat) : digitsVal (natToChars n) = n := by
  unfold natToChars
  by_cases hn : n = 0
  · rw [if_pos hn]
    subst hn
    decide
  · rw [if_neg hn]
    exact natToCharsAux_val (n + 1) n (by omega)

/-- The int parser reads back a decimal rendering followed by a non-digit. -/
theorem parseNat_ser (n : Nat) (rest : List Char)
    (hrest : ∀ d, rest.head? = some d → d.isDigit = false) :
    parseNat (natToChars n ++ rest) = some (n, rest) := by
  obtain ⟨ht, hd⟩ := takeWhile_app Char.isDigit (natToChars n) rest
    (natToChars_digits n) hrest
  simp only [parseNat, ht, hd]
  rw [if_neg (natToChars_ne_nil n), digitsVal_natToChars]

/-- A digit is not the double quote. -/
theorem bne_quote_of_isDigit (c : Char) (h : c.isDigit = true) :
    (c != '"') = true := by
  by_contra hne
  have hc : c = '"' := by simpa using hne
  rw [hc] at h
  exact absurd h (by decide)

/-- The string-literal parser reads back a serialized quote-free key. -/
theorem parseStringLit_ser (k : String) (rest : List Char)
    (hk : ∀ c ∈ k.data, (c != '"') = true) :
    parseStringLit ('"' :: (k.data ++ '"' :: rest)) = some (k, rest) := by
  have hy : ∀ d, ('"' :: rest).head? = some d → (d != '"') = false := by
    intro d hd
    injection hd with hd
    subst hd
    decide
  obtain ⟨ht, hd⟩ := takeWhile_app (fun c => c != '"') k.data ('"' :: rest) hk hy
  simp only [parseStringLit, ht, hd]

/-- The pair parser reads back a serialized interval. -/
theorem parsePair_ser (a b : Nat) (rest : List Char) :
    parsePair
        ('[' :: (natToChars a ++ ',' :: ' ' :: (natToChars b ++ ']' :: rest)))
      = some ((a, b), rest) := by
  have h1 := parseNat_ser a (',' :: ' ' :: (natToChars b ++ ']' :: rest))
    (by intro d hd; injection hd with hd; subst hd; decide)
  have h2 := parseNat_ser b (']' :: rest)
    (by intro d hd; injection hd with hd; subst hd; decide)
  simp only [parsePair, h1, h2]

/-- The member parser reads back a serialized entry followed by anything. -/
theorem parseEntry_ser (k : String) (a b : Nat) (rest : List Char)
    (hk : ∀ c ∈ k.data, (c != '"') = true) :
    parseEntry (serEntry (k, a, b) ++ rest) = some ((k, a, b), rest) := by
  have hshape : serEntry (k, a, b) ++ rest
      = '"' :: (k.data ++ '"' :: (':' :: ' ' ::
          ('[' :: (natToChars a ++ ',' :: ' ' ::
            (natToChars b ++ ']' :: rest))))) := by
    simp [serEntry]
  rw [hshape]
  have h1 := parseStringLit_ser k (':' :: ' ' ::
      ('[' :: (natToChars a ++ ',' :: ' ' :: (natToChars b ++ ']' :: rest)))) hk
  have h2 := parsePair_ser a b rest
  simp only [parseEntry, h1, h2]

/-- A serialized entry is never empty. -/
theorem serEntry_ne_nil (e : Entry) : serEntry e ≠ [] := by
  obtain ⟨k, a, b⟩ := e
  simp [serEntry]

/-- A serialized nonempty member list is never empty. -/
theorem serEntries_cons_ne_nil (e : Entry) (es : List Entry) :
    serEntries (e :: es) ≠ [] := by
  cases es with
  | nil =>
    simp only [serEntries]
    exact serEntry_ne_nil e
  | cons e2 es2 =>
    simp only [serEntries]
    intro h
    have h2 := List.append_eq_nil.mp h
    exact absurd h2.2 (by simp)

/-- The serialized member list is at least as long as the member list. -/
theorem serEntries_length (es : List Entry) :
    es.length ≤ (serEntries es).length := by
  induction es with
  | nil => simp [serEntries]
  | cons e es ih =>
    cases es with
    | nil =>
      have h1 := List.length_pos.mpr (serEntry_ne_nil e)
      simpa [serEntries] using h1
    | cons e2 es2 =>
      have h1 := List.length_pos.mpr (serEntry_ne_nil e)
      simp only [serEntries, List.length_append, List.length_cons] at ih ⊢
      omega

/-- The fuelled member-list parser reads back a serialized nonempty member
list up to the closing brace, given enough fuel and quote-free keys. -/
theorem parseEntriesAux_ser (es : List Entry) :
    ∀ fuel, es.length ≤ fuel → es ≠ [] →
      (∀ e ∈ es, ∀ c ∈ e.1.data, (c != '"') = true) →
      parseEntriesAux fuel (serEntries es ++ ['}']) = some es := by
  induction es with
  | nil => intro fuel _ hne _; exact absurd rfl hne
  | cons e es ih =>
    intro fuel hlen _ hsafe
    obtain ⟨k, a, b⟩ := e
    cases fuel with
    | zero => simp at hlen
    | succ fuel =>
      cases es with
      | nil =>
        have hent := parseEntry_ser k a b ['}']
          (hsafe (k, a, b) (List.mem_cons_self ..))
        simp only [serEntries]
        simp only [parseEntriesAux, hent]
      | cons e2 es2 =>
        have hshape : serEntries ((k, a, b) :: e2 :: es2) ++ ['}']
            = serEntry (k, a, b)
                ++ (',' :: ' ' :: (serEntries (e2 :: es2) ++ ['}'])) := by
          simp [serEntries]
        rw [hshape]
        have hent := parseEntry_ser k a b
          (',' :: ' ' :: (serEntries (e2 :: es2) ++ ['}']))
          (hsafe (k, a, b) (List.mem_cons_self ..))
        have hrec := ih fuel (by simp at hlen ⊢; omega) (by simp)
          (fun e he => hsafe e (List.mem_cons_of_mem _ he))
        simp only [parseEntriesAux, hent, hrec]

/-- Labels built by the source's f-string contain no double quote. -/
theorem mkLabel_safe (r j : Nat) :
    ∀ c ∈ (mkLabel r j).data, (c != '"') = true := by
  intro c hc
  have hc2 : c ∈ natToChars r ++ '.' :: natToChars j := hc
  rcases List.mem_append.mp hc2 with h | h
  · exact bne_quote_of_isDigit c (natToChars_digits r c h)
  · simp only [List.mem_cons] at h
    rcases h with rfl | h
    · decide
    · exact bne_quote_of_isDigit c (natToChars_digits j c h)

/-- Every key of an enumerated region is a label. -/
theorem enumWords_keys (r : Nat) :
    ∀ ws i kw, kw ∈ enumWords r ws i → ∃ j, kw.1 = mkLabel r j := by
  intro ws
  induction ws with
  | nil => intro i kw h; simp [enumWords] at h
  | cons w ws ih =>
    intro i kw h
    simp only [enumWords, List.mem_cons] at h
    rcases h with rfl | h
    · exact ⟨i, rfl⟩
    · exact ih (i + 1) kw h

/-- Every key of a row's labelled words is a label. -/
theorem rowWords_keys (b p t g : Cell) :
    ∀ kw ∈ rowWords b p t g, ∃ r j, kw.1 = mkLabel r j := by
  intro kw h
  simp only [rowWords, List.mem_append] at h
  rcases h with h | h | h | h
  · obtain ⟨j, hj⟩ := enumWords_keys 1 _ 1 kw h
    exact ⟨1, j, hj⟩
  · obtain ⟨j, hj⟩ := enumWords_keys 2 _ 1 kw h
    exact ⟨2, j, hj⟩
  · obtain ⟨j, hj⟩ := enumWords_keys 3 _ 1 kw h
    exact ⟨3, j, hj⟩
  · obtain ⟨j, hj⟩ := enumWords_keys 4 _ 1 kw h
    exact ⟨4, j, hj⟩

/-- Every key the builder produces is quote-free, so its serialization
parses back. -/
theorem buildMap_keysSafe (b p t g : Cell) : KeysSafe (buildMap b p t g) := by
  intro e he c hc
  rw [buildMap_eq_labelRun] at he
  have hfst : e.1 ∈ (rowWords b p t g).map Prod.fst := by
    rw [← labelRun_map_fst (rowWords b p t g) Offset 0]
    exact List.mem_map_of_mem _ he
  obtain ⟨kw, hkw, hfst2⟩ := List.mem_map.mp hfst
  obtain ⟨r, j, hj⟩ := rowWords_keys b p t g kw hkw
  rw [← hfst2, hj] at hc
  exact mkLabel_safe r j c hc

/-- The parser model of `ast.literal_eval` inverts `json.dumps` on every
map with quote-free keys. -/
theorem literalEval_jsonDumps (m : List Entry) (hsafe : KeysSafe m) :
    literalEval (jsonDumps m) = some m := by
  cases m with
  | nil => rfl
  | cons e es =>
    have hne : serEntries (e :: es) ≠ [] := serEntries_cons_ne_nil e es
    have hstep : literalEval (jsonDumps (e :: es))
        = if ('{' : Char) = '{' then
            (if serEntries (e :: es) ++ ['}'] = ['}'] then some []
             else parseEntriesAux (serEntries (e :: es) ++ ['}']).length
                (serEntries (e :: es) ++ ['}']))
          else none := rfl
    rw [hstep, if_pos rfl]
    have hne2 : serEntries (e :: es) ++ ['}'] ≠ ['}'] := by
      obtain ⟨x, xs, hx⟩ := List.exists_cons_of_ne_nil hne
      rw [hx]
      simp
    rw [if_neg hne2]
    apply parseEntriesAux_ser (e :: es)
    · have h1 := serEntries_length (e :: es)
      simp only [List.length_append, List.length_cons] at h1 ⊢
      omega
    · simp
    · exact hsafe

/-! ## Claims C9 and C1 -/

/-- C9: for every row, the serialized map the builder produces via
`json.dumps` is successfully deserialized by the resolver's
`ast.literal_eval`, yielding exactly the labels and interval endpoints the
builder constructed. -/
theorem c9_theorem (b p t g : Cell) :
    literalEval (fill_word_labels b p t g) = some (buildMap b p t g) :=
  literalEval_jsonDumps (buildMap b p t g) (buildMap_keysSafe b p t g)

/-- C1 counterexample: on the spec's example row the word `"1.2"` (= "did")
gets the interval (295, 351) = (295, 295 + 14 × (3 + 1)), not (295, 323) as
the claim states. -/
theorem c1_counterexample :
    (buildMap exB exP exT exG).lookup "1.2" = some (295, 351)
    ∧ (buildMap exB exP exT exG).lookup "1.2" ≠ some (295, 323) :=
  ⟨by decide, by decide⟩

/-- C1 amended: the builder processes regions 1 to 4 in order and words in
order within each region, assigning each word the interval that starts at
the running cursor and has width `PPC * (length + flag)`, the flag being 0
for the very first word overall and 1 afterwards; on the example row word
"1.1" gets (281, 295), word "1.2" gets (295, 351), and fixations 290, 295,
296 resolve to "1.1", "1.1", "1.2" respectively. -/
theorem c1_theorem (b p t g : Cell) :
    (buildMap b p t g = (labelRun (rowWords b p t g) Offset 0).1)
    ∧ (∀ i (h1 : i < (buildMap b p t g).length)
          (h2 : i < (rowWords b p t g).length),
        ((buildMap b p t g).get ⟨i, h1⟩).2.2
          = ((buildMap b p t g).get ⟨i, h1⟩).2.1
            + PPC * (((rowWords b p t g).get ⟨i, h2⟩).2.length
                + if i = 0 then 0 else 1))
    ∧ (buildMap exB exP exT exG
        = [("1.1", 281, 295), ("1.2", 295, 351), ("1.3", 351, 407),
            ("2.1", 407, 449), ("2.2", 449, 491), ("3.1", 491, 589),
            ("4.1", 589, 645), ("4.2", 645, 743), ("4.3", 743, 827)]
      ∧ find_interest_area (fill_word_labels exB exP exT exG) (.num 290)
          = .ok (.vstr "1.1")
      ∧ find_interest_area (fill_word_labels exB exP exT exG) (.num 295)
          = .ok (.vstr "1.1")
      ∧ find_interest_area (fill_word_labels exB exP exT exG) (.num 296)
          = .ok (.vstr "1.2")) := by
  refine ⟨buildMap_eq_labelRun b p t g, ?_, by decide, rfl, rfl, rfl⟩
  have haux : ∀ (l : List Entry),
      l = (labelRun (rowWords b p t g) Offset 0).1 →
      ∀ i (h1 : i < l.length) (h2 : i < (rowWords b p t g).length),
        (l.get ⟨i, h1⟩).2.2
          = (l.get ⟨i, h1⟩).2.1
            + PPC * (((rowWords b p t g).get ⟨i, h2⟩).2.length
                + if i = 0 then 0 else 1) := by
    intro l hl
    subst hl
    exact labelRun_width (rowWords b p t g) Offset 0
  exact haux _ (buildMap_eq_labelRun b p t g)

/-- Witness for the amended C1: the width law at the second word of the
example row and the resolution of fixation 296. -/
theorem c1_witness :
    ((buildMap exB exP exT exG).get ⟨1, by decide⟩).2.2
        = ((buildMap exB exP exT exG).get ⟨1, by decide⟩).2.1
          + PPC * (((rowWords exB exP exT exG).get ⟨1, by decide⟩).2.length
              + if 1 = 0 then 0 else 1)
    ∧ find_interest_area (fill_word_labels exB exP exT exG) (.num 296)
        = .ok (.vstr "1.2") :=
  ⟨(c1_theorem exB exP exT exG).2.1 1 (by decide) (by decide),
    (c1_theorem exB exP exT exG).2.2.2.2.2⟩
